import Mathlib

/-!
Verification of the evaluation orchestration core of the AItext_evaluator
repository (`app/services/evaluation_service.py`, `app/services/base_evaluator.py`,
`app/services/hallucination_evaluator.py`).

Modelling conventions:
* Python floats are modelled as rationals (`ℚ`); the arithmetic performed by
  the orchestrator (weighted sums of small decimal constants, division,
  clamping) is exact on the inputs considered here.
* Python's `round(x, 2)` is modelled as `round (100 * x) / 100`.  Python uses
  round-half-to-even on binary floats; the two differ only at exact half-cent
  ties, which none of the statements below touch.
* A Python dict is modelled as an association list built with dict-faithful
  insertion (`dictInsert`): an existing key is overwritten in place, a new key
  is appended.  Iteration order is insertion order, as in Python.
* `evaluate_text` awaits one task per requested-and-registered kind; a task
  either returns a result dict or raises.  The per-kind behaviour is a
  parameter `behavior : String → Except String Outcome` (`.error e` models a
  raised exception whose string rendering is `e`), abstracting the evaluator
  model inference that the design treats as an external collaborator.
-/

/-- A result dict as consumed by `_calculate_safety_score`.
`score = none` models a dict without a `"score"` key. -/
structure Outcome where
  score : Option ℚ
  error : Option String := none
  evaluation_type : String := ""
  deriving DecidableEq

/-- The fixed weight table of `_calculate_safety_score`
(`toxicity=0.4, pii=0.3, bias=0.2, hallucination=0.1`). -/
def weights : List (String × ℚ) :=
  [("toxicity", 4/10), ("pii", 3/10), ("bias", 2/10), ("hallucination", 1/10)]

/-- `weights[eval_type]` together with the `eval_type in weights` test. -/
def weightOf (k : String) : Option ℚ :=
  (weights.find? (fun p => p.1 == k)).map (fun p => p.2)

/-- `min(max(result["score"], 0.0), 1.0)`: the defensive clamp applied to each
raw score before fusion. -/
def clamp01 (s : ℚ) : ℚ := min (max s 0) 1

/-- The per-kind normalisation of `_calculate_safety_score`: every kind except
`"hallucination"` is inverted (`1 - clamped score`); hallucination is not. -/
def normalizedScore (k : String) (s : ℚ) : ℚ :=
  if k ≠ "hallucination" then 1 - clamp01 s else clamp01 s

/-- One iteration of the accumulation loop of `_calculate_safety_score`,
carrying `(total_score, total_weight)`.  A kind outside the weight table, or a
result dict without a `"score"` key, leaves the accumulator unchanged. -/
def fuseStep (acc : ℚ × ℚ) (entry : String × Outcome) : ℚ × ℚ :=
  match weightOf entry.1, entry.2.score with
  | some w, some s => (acc.1 + normalizedScore entry.1 s * w, acc.2 + w)
  | _, _ => acc

/-- The `(total_score, total_weight)` accumulated over a whole result dict. -/
def fuseSums (results : List (String × Outcome)) : ℚ × ℚ :=
  results.foldl fuseStep (0, 0)

/-- Python's `round(x, 2)`. -/
def round2 (x : ℚ) : ℚ := (round (100 * x) : ℤ) / 100

/-- `EvaluationService._calculate_safety_score`. -/
def calculate_safety_score (results : List (String × Outcome)) : ℚ :=
  if results = [] then 0
  else if (fuseSums results).2 > 0 then
    round2 ((fuseSums results).1 / (fuseSums results).2 * 100)
  else 0

/-- The keys of `EvaluationService.evaluators`, in construction order. -/
def registryKinds : List String := ["toxicity", "pii", "bias", "hallucination"]

/-- The degraded result dict `{"score": 0.0, "error": str(result),
"evaluation_type": eval_type}` substituted for a task that raised. -/
def degradedOutcome (kind e : String) : Outcome := ⟨some 0, some e, kind⟩

/-- What the result-processing loop stores for one completed task: the task's
own dict if it returned, the degraded dict if it raised. -/
def outcomeOf (kind : String) (r : Except String Outcome) : Outcome :=
  match r with
  | .ok o => o
  | .error e => degradedOutcome kind e

/-- Python-dict assignment `d[k] = v`: overwrite in place if the key exists,
append otherwise. -/
def dictInsert (d : List (String × Outcome)) (k : String) (v : Outcome) :
    List (String × Outcome) :=
  if d.any (fun p => p.1 == k) then d.map (fun p => if p.1 == k then (k, v) else p)
  else d ++ [(k, v)]

/-- Python-dict lookup `d[k]` (`none` when the key is absent). -/
def dlookup (k : String) (d : List (String × Outcome)) : Option Outcome :=
  (d.find? (fun p => p.1 == k)).map (fun p => p.2)

/-- The result-processing loop of `evaluate_text`: zips the *unfiltered*
requested-kind list with the gathered task results and stores each entry in
the `evaluation_results` dict. -/
def processResults (evals : List String) (results : List (Except String Outcome)) :
    List (String × Outcome) :=
  (evals.zip results).foldl (fun d kr => dictInsert d kr.1 (outcomeOf kr.1 kr.2)) []

/-- The composite dict returned by `evaluate_text`. -/
structure EvalTextResult where
  safety_score : ℚ
  evaluations : List (String × Outcome)
  text : String
  context : Option String

/-- `EvaluationService.evaluate_text`: defaults an absent request list to the
registry keys, builds one task per requested kind present in the registry,
gathers the results (exceptions included), keys them by zipping with the
unfiltered request list, and fuses the safety score. -/
def evaluate_text (behavior : String → Except String Outcome)
    (text : String) (context : Option String)
    (requested : Option (List String)) : EvalTextResult :=
  let evals := requested.getD registryKinds
  let results := (evals.filter (fun k => registryKinds.contains k)).map behavior
  let evaluation_results := processResults evals results
  { safety_score := calculate_safety_score evaluation_results
    evaluations := evaluation_results
    text := text
    context := context }

/-- Closed form of the weight lookup. -/
theorem weightOf_eq (k : String) :
    weightOf k =
      if k = "toxicity" then some (4/10)
      else if k = "pii" then some (3/10)
      else if k = "bias" then some (2/10)
      else if k = "hallucination" then some (1/10)
      else none := by
  by_cases h1 : k = "toxicity"
  · subst h1; simp [weightOf, weights, List.find?]
  by_cases h2 : k = "pii"
  · subst h2; simp [weightOf, weights, List.find?]
  by_cases h3 : k = "bias"
  · subst h3; simp [weightOf, weights, List.find?]
  by_cases h4 : k = "hallucination"
  · subst h4; simp [weightOf, weights, List.find?]
  have g1 : ("toxicity" == k) = false := by simp [Ne.symm h1]
  have g2 : ("pii" == k) = false := by simp [Ne.symm h2]
  have g3 : ("bias" == k) = false := by simp [Ne.symm h3]
  have g4 : ("hallucination" == k) = false := by simp [Ne.symm h4]
  simp [weightOf, weights, List.find?, g1, g2, g3, g4, h1, h2, h3, h4]

/-- The raw-score table of the spec's fusion-correctness test case:
`{toxicity: 0.2, pii: 0.0, bias: 0.0, hallucination: 0.0}`. -/
def fusionExample : List (String × Outcome) :=
  [("toxicity", ⟨some (2/10), none, "toxicity"⟩),
   ("pii", ⟨some 0, none, "pii"⟩),
   ("bias", ⟨some 0, none, "bias"⟩),
   ("hallucination", ⟨some 0, none, "hallucination"⟩)]

/-- C2 (counterexample): on the spec's own test inputs the aggregator does not
return `92.0`: the weighted sum is `0.8*0.4 + 1.0*0.3 + 1.0*0.2 + 0.0*0.1 = 0.82`,
so the score is `82.0`. -/
theorem fusionExample_score_ne_92 : calculate_safety_score fusionExample ≠ 92 := by
  simp [fusionExample, calculate_safety_score, fuseSums, fuseStep, weightOf,
    weights, normalizedScore, clamp01, List.find?]
  norm_num [round2, round_eq]

/-- C2 (amended): given raw scores `{toxicity: 0.2, pii: 0.0, bias: 0.0,
hallucination: 0.0}` and the full weight table, the aggregator returns
`safetyScore = 82.0`. -/
theorem fusionExample_score_eq_82 : calculate_safety_score fusionExample = 82 := by
  simp [fusionExample, calculate_safety_score, fuseSums, fuseStep, weightOf,
    weights, normalizedScore, clamp01, List.find?]
  norm_num [round2, round_eq]

/-- Mapping each key to a keyed pair and projecting back is the identity. -/
theorem map_fst_keyed (f : String → Outcome) (l : List String) :
    (l.map fun a => (a, f a)).map Prod.fst = l := by
  induction l with
  | nil => rfl
  | cons a l ih => simp [ih]

/-- Inserting a fresh key into a dict appends it. -/
theorem dictInsert_of_fresh (d : List (String × Outcome)) (k : String) (v : Outcome)
    (h : ∀ q ∈ d, q.1 ≠ k) : dictInsert d k v = d ++ [(k, v)] := by
  unfold dictInsert
  have hany : d.any (fun p => p.1 == k) = false := by
    rw [List.any_eq_false]
    intro p hp
    simp only [beq_iff_eq]
    exact h p hp
  simp [hany]

/-- Folding dict insertions of pairwise-fresh keys over a dict they do not
occur in is plain concatenation. -/
theorem foldl_dictInsert_fresh :
    ∀ (ps : List (String × Outcome)) (d : List (String × Outcome)),
      (∀ p ∈ ps, ∀ q ∈ d, q.1 ≠ p.1) → (ps.map Prod.fst).Nodup →
      ps.foldl (fun acc kr => dictInsert acc kr.1 kr.2) d = d ++ ps
  | [], d, _, _ => by simp
  | p :: ps, d, hfresh, hnd => by
    have hstep : dictInsert d p.1 p.2 = d ++ [(p.1, p.2)] :=
      dictInsert_of_fresh d p.1 p.2 (fun q hq => hfresh p (by simp) q hq)
    have hnd0 : (p.1 :: ps.map Prod.fst).Nodup := by simpa using hnd
    have hnd' : (ps.map Prod.fst).Nodup := (List.nodup_cons.mp hnd0).2
    have hheadmem : p.1 ∉ ps.map Prod.fst := (List.nodup_cons.mp hnd0).1
    have hhead : ∀ x ∈ ps, p.1 ≠ x.1 := by
      intro x hx hcontra
      exact hheadmem (hcontra ▸ List.mem_map_of_mem Prod.fst hx)
    have hfresh' : ∀ x ∈ ps, ∀ q ∈ d ++ [(p.1, p.2)], q.1 ≠ x.1 := by
      intro x hx q hq
      rcases List.mem_append.mp hq with hqd | hqp
      · exact hfresh x (by simp [hx]) q hqd
      · simp only [List.mem_singleton] at hqp
        subst hqp
        exact hhead x hx
    calc (p :: ps).foldl (fun acc kr => dictInsert acc kr.1 kr.2) d
        = ps.foldl (fun acc kr => dictInsert acc kr.1 kr.2) (d ++ [(p.1, p.2)]) := by
          simp [hstep]
      _ = (d ++ [(p.1, p.2)]) ++ ps := foldl_dictInsert_fresh ps _ hfresh' hnd'
      _ = d ++ (p :: ps) := by simp

/-- When the requested kinds are distinct and every task result is keyed
against its own kind, the result-processing loop produces one entry per kind
in request order. -/
theorem processResults_eq_map (behavior : String → Except String Outcome)
    (evals : List String) (hnd : evals.Nodup) :
    processResults evals (evals.map behavior)
      = evals.map (fun k => (k, outcomeOf k (behavior k))) := by
  unfold processResults
  have hzip : evals.zip (evals.map behavior) = evals.map (fun k => (k, behavior k)) := by
    have := List.zip_map' (fun k : String => k) behavior evals
    simpa using this
  rw [hzip, List.foldl_map]
  have hkeys : ((evals.map fun k => (k, outcomeOf k (behavior k))).map Prod.fst).Nodup := by
    rw [map_fst_keyed]
    exact hnd
  have h2 := foldl_dictInsert_fresh (evals.map fun k => (k, outcomeOf k (behavior k))) []
    (by intro p _ q hq; simp at hq) hkeys
  rw [List.foldl_map] at h2
  simpa using h2

/-- Looking up a key of a keyed map returns that key's own value. -/
theorem dlookup_map_self (f : String → Outcome) :
    ∀ (l : List String) (k : String), k ∈ l →
      dlookup k (l.map fun a => (a, f a)) = some (f k)
  | a :: l, k, h => by
    by_cases hak : a = k
    · subst hak; simp [dlookup, List.find?_cons]
    · have hk : k ∈ l := by
        rcases List.mem_cons.mp h with h1 | h1
        · exact absurd h1.symm hak
        · exact h1
      have htail := dlookup_map_self f l k hk
      have hbeq : (a == k) = false := by simp [hak]
      simp only [dlookup, List.map_cons, List.find?_cons] at htail ⊢
      simpa [hbeq] using htail

/-- An evaluator behaviour where every task returns normally with a
zero-score result keyed to its own kind. -/
def okBehavior : String → Except String Outcome := fun k => .ok ⟨some 0, none, k⟩

/-- C1: requesting an unregistered kind mis-keys the registered kinds'
results. With `evaluations=["unknown", "toxicity"]` only one task (toxicity)
is launched, but the results are zipped against the unfiltered request list,
so toxicity's outcome is stored under the key `"unknown"` and the key
`"toxicity"` is absent — contradicting the claimed invariant that unregistered
kinds are dropped without mis-keying other kinds' results. -/
theorem evaluate_text_miskeys_unregistered :
    (evaluate_text okBehavior "t" none (some ["unknown", "toxicity"])).evaluations
        = [("unknown", ⟨some 0, none, "toxicity"⟩)]
      ∧ dlookup "toxicity"
          (evaluate_text okBehavior "t" none (some ["unknown", "toxicity"])).evaluations
        = none := by
  constructor <;> rfl

/-- C7 (counterexample): with an explicitly empty request list, `evaluate_text`
does not evaluate the full registered set — its result dict has no keys at
all, unlike the registered-kind list. -/
theorem evaluate_text_empty_request_counterexample :
    (evaluate_text okBehavior "t" none (some [])).evaluations.map Prod.fst
      ≠ registryKinds := by
  decide

/-- C7 (amended): only an *absent* (`None`) request list defaults to the full
registered set; an explicitly empty list launches no evaluations and yields an
empty result dict with safety score `0.0`. -/
theorem evaluate_text_empty_vs_absent (behavior : String → Except String Outcome)
    (text : String) (context : Option String) :
    (evaluate_text behavior text context (some [])).evaluations = []
    ∧ (evaluate_text behavior text context (some [])).safety_score = 0
    ∧ (evaluate_text behavior text context none).evaluations.map Prod.fst
        = registryKinds := by
  refine ⟨rfl, rfl, ?_⟩
  have hfilter : registryKinds.filter (fun k => registryKinds.contains k) = registryKinds := by
    decide
  have hnd : registryKinds.Nodup := by decide
  show (processResults registryKinds
      ((registryKinds.filter (fun k => registryKinds.contains k)).map behavior)).map Prod.fst
    = registryKinds
  rw [hfilter, processResults_eq_map behavior registryKinds hnd,
    map_fst_keyed (fun k => outcomeOf k (behavior k)) registryKinds]

/-- A fuse step shifts the accumulator additively by the entry's own
contribution. -/
theorem fuseStep_shift (a b : ℚ) (x : String × Outcome) :
    fuseStep (a, b) x = (a + (fuseStep (0, 0) x).1, b + (fuseStep (0, 0) x).2) := by
  rcases hw : weightOf x.1 with _ | w <;> rcases hs : x.2.score with _ | s <;>
    simp [fuseStep, hw, hs]

/-- Folding the fusion loop from any accumulator adds the list's sums to it. -/
theorem foldl_fuseStep_eq :
    ∀ (l : List (String × Outcome)) (a b : ℚ),
      l.foldl fuseStep (a, b) = (a + (fuseSums l).1, b + (fuseSums l).2)
  | [], a, b => by simp [fuseSums]
  | x :: l, a, b => by
    rcases hfx : fuseStep (0, 0) x with ⟨d1, d2⟩
    have hx : fuseStep (a, b) x = (a + d1, b + d2) := by rw [fuseStep_shift a b x, hfx]
    have hsums : fuseSums (x :: l) = (d1 + (fuseSums l).1, d2 + (fuseSums l).2) := by
      unfold fuseSums
      rw [List.foldl_cons]
      show List.foldl fuseStep (fuseStep (0, 0) x) l = _
      rw [hfx]
      exact foldl_fuseStep_eq l d1 d2
    rw [List.foldl_cons, hx, foldl_fuseStep_eq l (a + d1) (b + d2), hsums]
    simp only [Prod.mk.injEq]
    constructor <;> ring

/-- The fusion sums of a cons decompose into head and tail contributions. -/
theorem fuseSums_cons (x : String × Outcome) (l : List (String × Outcome)) :
    fuseSums (x :: l)
      = ((fuseStep (0, 0) x).1 + (fuseSums l).1, (fuseStep (0, 0) x).2 + (fuseSums l).2) := by
  unfold fuseSums
  rw [List.foldl_cons]
  rcases hfx : fuseStep (0, 0) x with ⟨d1, d2⟩
  exact foldl_fuseStep_eq l d1 d2

/-- The fusion sums are additive over concatenation. -/
theorem fuseSums_append (l₁ l₂ : List (String × Outcome)) :
    fuseSums (l₁ ++ l₂)
      = ((fuseSums l₁).1 + (fuseSums l₂).1, (fuseSums l₁).2 + (fuseSums l₂).2) := by
  show List.foldl fuseStep (0, 0) (l₁ ++ l₂) = _
  rw [List.foldl_append]
  show List.foldl fuseStep (fuseSums l₁) l₂ = _
  rcases hf : fuseSums l₁ with ⟨a, b⟩
  exact foldl_fuseStep_eq l₂ a b

/-- Every weight in the table is positive. -/
theorem weightOf_pos {k : String} {w : ℚ} (h : weightOf k = some w) : 0 < w := by
  rw [weightOf_eq] at h
  split_ifs at h <;> injection h with h <;> subst h <;> norm_num

/-- The clamped raw score lies in `[0, 1]`. -/
theorem clamp01_mem (s : ℚ) : 0 ≤ clamp01 s ∧ clamp01 s ≤ 1 := by
  unfold clamp01
  exact ⟨le_min (le_max_right s 0) zero_le_one, min_le_right _ _⟩

/-- The normalised per-kind score lies in `[0, 1]`. -/
theorem normalizedScore_mem (k : String) (s : ℚ) :
    0 ≤ normalizedScore k s ∧ normalizedScore k s ≤ 1 := by
  unfold normalizedScore
  rcases clamp01_mem s with ⟨h0, h1⟩
  split_ifs <;> constructor <;> linarith

/-- One entry's contribution to the weighted sum is between `0` and its
contribution to the total weight. -/
theorem fuseStep_delta_bounds (x : String × Outcome) :
    0 ≤ (fuseStep (0, 0) x).1 ∧ (fuseStep (0, 0) x).1 ≤ (fuseStep (0, 0) x).2 := by
  rcases hw : weightOf x.1 with _ | w
  · simp [fuseStep, hw]
  rcases hs : x.2.score with _ | s
  · simp [fuseStep, hw, hs]
  have hwpos := weightOf_pos hw
  rcases normalizedScore_mem x.1 s with ⟨hn0, hn1⟩
  have h1 : 0 ≤ normalizedScore x.1 s * w := mul_nonneg hn0 hwpos.le
  have h2 : normalizedScore x.1 s * w ≤ w := by
    calc normalizedScore x.1 s * w ≤ 1 * w := mul_le_mul_of_nonneg_right hn1 hwpos.le
      _ = w := one_mul w
  constructor <;> simp [fuseStep, hw, hs] <;> linarith

/-- Over any result dict, `0 ≤ total_score ≤ total_weight`. -/
theorem fuseSums_bounds (l : List (String × Outcome)) :
    0 ≤ (fuseSums l).1 ∧ (fuseSums l).1 ≤ (fuseSums l).2 := by
  induction l with
  | nil => simp [fuseSums]
  | cons x l ih =>
    rcases fuseStep_delta_bounds x with ⟨hx0, hx12⟩
    rw [fuseSums_cons]
    constructor
    · exact add_nonneg hx0 ih.1
    · exact add_le_add hx12 ih.2

/-- The weight a key contributes when present in the table, `0` otherwise. -/
def keyWeight (k : String) : ℚ := (weightOf k).getD 0

/-- Weights are nonnegative. -/
theorem keyWeight_nonneg (k : String) : 0 ≤ keyWeight k := by
  unfold keyWeight
  rw [weightOf_eq]
  split_ifs <;> norm_num

/-- Keys outside the registry carry no weight. -/
theorem keyWeight_eq_zero {k : String} (h : k ∉ registryKinds) : keyWeight k = 0 := by
  have h1 : k ≠ "toxicity" := by rintro rfl; exact h (by decide)
  have h2 : k ≠ "pii" := by rintro rfl; exact h (by decide)
  have h3 : k ≠ "bias" := by rintro rfl; exact h (by decide)
  have h4 : k ≠ "hallucination" := by rintro rfl; exact h (by decide)
  unfold keyWeight
  rw [weightOf_eq]
  simp [h1, h2, h3, h4]

/-- One entry contributes at most its key's table weight to `total_weight`. -/
theorem fuseStep_delta_tw_le (x : String × Outcome) :
    (fuseStep (0, 0) x).2 ≤ keyWeight x.1 := by
  rcases hw : weightOf x.1 with _ | w
  · simpa [fuseStep, hw] using keyWeight_nonneg x.1
  rcases hs : x.2.score with _ | s
  · have : keyWeight x.1 = w := by simp [keyWeight, hw]
    simp [fuseStep, hw, hs, this, (weightOf_pos hw).le]
  · have : keyWeight x.1 = w := by simp [keyWeight, hw]
    simp [fuseStep, hw, hs, this]

/-- `total_weight` is at most the sum of the entries' table weights. -/
theorem fuseSums_tw_le_sum (l : List (String × Outcome)) :
    (fuseSums l).2 ≤ (l.map (fun p => keyWeight p.1)).sum := by
  induction l with
  | nil => simp [fuseSums]
  | cons x l ih =>
    rw [fuseSums_cons, List.map_cons, List.sum_cons]
    exact add_le_add (fuseStep_delta_tw_le x) ih

/-- Over distinct keys, the table weights sum to at most `1` (the full table
sums to exactly `0.4 + 0.3 + 0.2 + 0.1 = 1`). -/
theorem sum_keyWeight_le_one (ks : List String) (h : ks.Nodup) :
    (ks.map keyWeight).sum ≤ 1 := by
  classical
  have h1 : ks.toFinset.sum keyWeight = (ks.map keyWeight).sum := List.sum_toFinset keyWeight h
  have hinter : ks.toFinset.sum keyWeight
      = (ks.toFinset ∩ registryKinds.toFinset).sum keyWeight := by
    refine (Finset.sum_subset Finset.inter_subset_left ?_).symm
    intro x hx hnx
    have hxR : x ∉ registryKinds.toFinset := fun hc =>
      hnx (Finset.mem_inter.mpr ⟨hx, hc⟩)
    exact keyWeight_eq_zero (fun hc => hxR (List.mem_toFinset.mpr hc))
  have hle : (ks.toFinset ∩ registryKinds.toFinset).sum keyWeight
      ≤ registryKinds.toFinset.sum keyWeight := by
    refine Finset.sum_le_sum_of_subset_of_nonneg Finset.inter_subset_right ?_
    intro i _ _
    exact keyWeight_nonneg i
  have hRsum : registryKinds.toFinset.sum keyWeight = 1 := by
    rw [List.sum_toFinset keyWeight (by decide : registryKinds.Nodup)]
    simp [registryKinds, keyWeight, weightOf_eq]
    norm_num
  linarith

/-- Rounding is monotone on the rationals. -/
theorem round_mono_rat {x y : ℚ} (h : x ≤ y) : round x ≤ round y := by
  rw [round_eq, round_eq]
  exact Int.floor_le_floor (by linarith)

/-- Rounding increases strictly across a gap of at least one. -/
theorem round_lt_round {x y : ℚ} (h : x + 1 ≤ y) : round x < round y := by
  have h1 : round (x + 1) ≤ round y := round_mono_rat h
  have h2 : round (x + 1) = round x + 1 := round_add_one x
  omega

/-- Two-decimal rounding increases strictly across a gap of at least one
hundredth. -/
theorem round2_lt {x y : ℚ} (h : x + 1/100 ≤ y) : round2 x < round2 y := by
  unfold round2
  have hlt : round (100 * x) < round (100 * y) := round_lt_round (by linarith)
  have hcast : ((round (100 * x) : ℤ) : ℚ) < ((round (100 * y) : ℤ) : ℚ) := by
    exact_mod_cast hlt
  exact (div_lt_div_iff_of_pos_right (by norm_num)).mpr hcast

/-- C6: for every result dict — raw scores unrestricted, degraded entries and
unknown kinds included — the aggregate safety score lies in the closed
interval `[0, 100]` and is an integer number of hundredths (two decimal
places), thanks to the defensive clamp on every raw score before fusion. -/
theorem safety_score_in_range (results : List (String × Outcome)) :
    0 ≤ calculate_safety_score results
    ∧ calculate_safety_score results ≤ 100
    ∧ ∃ n : ℤ, calculate_safety_score results = (n : ℚ) / 100 := by
  unfold calculate_safety_score
  by_cases hnil : results = []
  · rw [if_pos hnil]
    exact ⟨le_refl 0, by norm_num, 0, by norm_num⟩
  rw [if_neg hnil]
  by_cases hw : (fuseSums results).2 > 0
  · rw [if_pos hw]
    rcases fuseSums_bounds results with ⟨h0, h12⟩
    have hr0 : 0 ≤ (fuseSums results).1 / (fuseSums results).2 * 100 := by
      have := div_nonneg h0 hw.le
      linarith
    have hr1 : (fuseSums results).1 / (fuseSums results).2 * 100 ≤ 100 := by
      have := (div_le_one hw).mpr h12
      linarith
    have hlow : (0:ℤ) ≤ round (100 * ((fuseSums results).1 / (fuseSums results).2 * 100)) := by
      have h00 : round (0 : ℚ) = 0 := round_zero
      have := round_mono_rat (by linarith :
        (0:ℚ) ≤ 100 * ((fuseSums results).1 / (fuseSums results).2 * 100))
      omega
    have hhigh : round (100 * ((fuseSums results).1 / (fuseSums results).2 * 100)) ≤ 10000 := by
      have h10000 : round ((10000 : ℚ)) = 10000 := by
        have : ((10000 : ℤ) : ℚ) = (10000 : ℚ) := by norm_num
        rw [← this, round_intCast]
      have := round_mono_rat (by linarith :
        (100:ℚ) * ((fuseSums results).1 / (fuseSums results).2 * 100) ≤ 10000)
      omega
    unfold round2
    refine ⟨?_, ?_, ⟨round (100 * ((fuseSums results).1 / (fuseSums results).2 * 100)), rfl⟩⟩
    · have : ((0:ℤ) : ℚ) ≤ (round (100 * ((fuseSums results).1 / (fuseSums results).2 * 100)) : ℚ) := by
        exact_mod_cast hlow
      have h100 : (0:ℚ) < 100 := by norm_num
      rw [le_div_iff₀ h100]
      simpa using this
    · have : (round (100 * ((fuseSums results).1 / (fuseSums results).2 * 100)) : ℚ) ≤ ((10000:ℤ) : ℚ) := by
        exact_mod_cast hhigh
      rw [div_le_iff₀ (by norm_num : (0:ℚ) < 100)]
      have h2 : (100:ℚ) * 100 = ((10000:ℤ) : ℚ) := by norm_num
      rw [h2]
      exact_mod_cast hhigh
  · rw [if_neg hw]
    exact ⟨le_refl 0, by norm_num, 0, by norm_num⟩

/-- C4: a zero-raw-score result dict for a non-hallucination weighted kind —
in particular the degraded dict substituted for a failed evaluator —
contributes its full weight to the weighted sum (normalised value
`1 - 0 = 1`), i.e. it counts as maximally safe. -/
theorem zero_score_full_weight (acc : ℚ × ℚ) (k : String) (w : ℚ) (d : Outcome)
    (hw : weightOf k = some w) (hk : k ≠ "hallucination") (hd : d.score = some 0) :
    fuseStep acc (k, d) = (acc.1 + w, acc.2 + w) := by
  have hc : clamp01 0 = 0 := by
    unfold clamp01
    rw [max_self, min_eq_left (by norm_num : (0:ℚ) ≤ 1)]
  simp [fuseStep, hw, hd, normalizedScore, hk, hc]

/-- C4 witness: the degraded toxicity dict (score `0.0`, error present)
contributes the full toxicity weight `0.4` to both fusion sums. -/
theorem zero_score_full_weight_witness :
    weightOf "toxicity" = some (4/10)
    ∧ ("toxicity" : String) ≠ "hallucination"
    ∧ (degradedOutcome "toxicity" "model load failed").score = some 0
    ∧ fuseStep (0, 0) ("toxicity", degradedOutcome "toxicity" "model load failed")
        = (0 + 4/10, 0 + 4/10) :=
  ⟨by simp [weightOf_eq], by decide, rfl,
   zero_score_full_weight (0, 0) "toxicity" (4/10) _ (by simp [weightOf_eq]) (by decide) rfl⟩

/-- Evaluation of the aggregator on a nonempty dict with positive total
weight. -/
theorem calculate_eq_of_pos {l : List (String × Outcome)} (hne : l ≠ [])
    (hpos : (fuseSums l).2 > 0) :
    calculate_safety_score l = round2 ((fuseSums l).1 / (fuseSums l).2 * 100) := by
  unfold calculate_safety_score
  rw [if_neg hne, if_pos hpos]

/-- With keys distinct (as in a Python dict), `total_weight` never exceeds the
full table sum `1`. -/
theorem fuseSums_tw_le_one (l : List (String × Outcome))
    (h : (l.map Prod.fst).Nodup) : (fuseSums l).2 ≤ 1 := by
  have h1 := fuseSums_tw_le_sum l
  have h2 : l.map (fun p => keyWeight p.1) = (l.map Prod.fst).map keyWeight := by
    rw [List.map_map]
    rfl
  have h3 := sum_keyWeight_le_one (l.map Prod.fst) h
  rw [h2] at h1
  linarith

/-- Contribution of a hallucination entry with a `"score"` key. -/
theorem fuseStep_hall (s : ℚ) (err : Option String) (et : String) :
    fuseStep (0, 0) ("hallucination", ⟨some s, err, et⟩)
      = (clamp01 s * (1/10), 1/10) := by
  have hw : weightOf "hallucination" = some (1/10) := by simp [weightOf_eq]
  simp [fuseStep, hw, normalizedScore]

/-- C3: within any result dict (distinct keys) containing a hallucination
entry, raising that entry's raw score from `0.1` to `0.9` — all other entries
and the weight table fixed — strictly increases the aggregate safety score:
the fusion does not invert the hallucination score. -/
theorem hallucination_raise_increases_safety
    (l₁ l₂ : List (String × Outcome)) (err : Option String) (et : String)
    (hnd : ((l₁ ++ ("hallucination", (⟨some (1/10), err, et⟩ : Outcome)) :: l₂).map
      Prod.fst).Nodup) :
    calculate_safety_score (l₁ ++ ("hallucination", ⟨some (1/10), err, et⟩) :: l₂)
      < calculate_safety_score (l₁ ++ ("hallucination", ⟨some (9/10), err, et⟩) :: l₂) := by
  rcases fuseSums_bounds l₁ with ⟨hA1, hA2⟩
  rcases fuseSums_bounds l₂ with ⟨hB1, hB2⟩
  have hc1 : clamp01 (1/10) = 1/10 := by
    unfold clamp01
    rw [max_eq_left (by norm_num), min_eq_left (by norm_num)]
  have hc9 : clamp01 (9/10) = 9/10 := by
    unfold clamp01
    rw [max_eq_left (by norm_num), min_eq_left (by norm_num)]
  have hS1 : fuseSums (l₁ ++ ("hallucination", ⟨some (1/10), err, et⟩) :: l₂)
      = ((fuseSums l₁).1 + (1/100 + (fuseSums l₂).1),
         (fuseSums l₁).2 + (1/10 + (fuseSums l₂).2)) := by
    rw [fuseSums_append, fuseSums_cons, fuseStep_hall (1/10) err et, hc1]
    simp only [Prod.mk.injEq]
    constructor <;> norm_num
  have hS9 : fuseSums (l₁ ++ ("hallucination", ⟨some (9/10), err, et⟩) :: l₂)
      = ((fuseSums l₁).1 + (9/100 + (fuseSums l₂).1),
         (fuseSums l₁).2 + (1/10 + (fuseSums l₂).2)) := by
    rw [fuseSums_append, fuseSums_cons, fuseStep_hall (9/10) err et, hc9]
    simp only [Prod.mk.injEq]
    constructor <;> norm_num
  have hTpos : (fuseSums l₁).2 + (1/10 + (fuseSums l₂).2) > 0 := by linarith
  have hne1 : l₁ ++ ("hallucination", (⟨some (1/10), err, et⟩ : Outcome)) :: l₂ ≠ [] := by
    simp
  have hne9 : l₁ ++ ("hallucination", (⟨some (9/10), err, et⟩ : Outcome)) :: l₂ ≠ [] := by
    simp
  have hpos1 : (fuseSums (l₁ ++ ("hallucination", (⟨some (1/10), err, et⟩ : Outcome)) :: l₂)).2 > 0 := by
    rw [hS1]
    exact hTpos
  have hpos9 : (fuseSums (l₁ ++ ("hallucination", (⟨some (9/10), err, et⟩ : Outcome)) :: l₂)).2 > 0 := by
    rw [hS9]
    exact hTpos
  have htw1 : (fuseSums l₁).2 + (1/10 + (fuseSums l₂).2) ≤ 1 := by
    have h := fuseSums_tw_le_one _ hnd
    rw [hS1] at h
    exact h
  have he1 : calculate_safety_score (l₁ ++ ("hallucination", ⟨some (1/10), err, et⟩) :: l₂)
      = round2 (((fuseSums l₁).1 + (1/100 + (fuseSums l₂).1))
          / ((fuseSums l₁).2 + (1/10 + (fuseSums l₂).2)) * 100) := by
    rw [calculate_eq_of_pos hne1 hpos1, hS1]
  have he9 : calculate_safety_score (l₁ ++ ("hallucination", ⟨some (9/10), err, et⟩) :: l₂)
      = round2 (((fuseSums l₁).1 + (9/100 + (fuseSums l₂).1))
          / ((fuseSums l₁).2 + (1/10 + (fuseSums l₂).2)) * 100) := by
    rw [calculate_eq_of_pos hne9 hpos9, hS9]
  have h8T : (1:ℚ)/100 ≤ 8 / ((fuseSums l₁).2 + (1/10 + (fuseSums l₂).2)) := by
    rw [le_div_iff₀ hTpos]
    nlinarith
  have hdiff : ((fuseSums l₁).1 + (9/100 + (fuseSums l₂).1))
        / ((fuseSums l₁).2 + (1/10 + (fuseSums l₂).2)) * 100
      - ((fuseSums l₁).1 + (1/100 + (fuseSums l₂).1))
        / ((fuseSums l₁).2 + (1/10 + (fuseSums l₂).2)) * 100
      = 8 / ((fuseSums l₁).2 + (1/10 + (fuseSums l₂).2)) := by
    rw [div_mul_eq_mul_div, div_mul_eq_mul_div, div_sub_div_same]
    congr 1
    ring
  have harg : ((fuseSums l₁).1 + (1/100 + (fuseSums l₂).1))
        / ((fuseSums l₁).2 + (1/10 + (fuseSums l₂).2)) * 100 + 1/100
      ≤ ((fuseSums l₁).1 + (9/100 + (fuseSums l₂).1))
        / ((fuseSums l₁).2 + (1/10 + (fuseSums l₂).2)) * 100 := by
    linarith
  rw [he1, he9]
  exact round2_lt harg

/-- C3 witness: with a toxicity entry of raw score `0.2` alongside, raising
the hallucination raw score from `0.1` to `0.9` strictly increases the
aggregate safety score. -/
theorem hallucination_raise_increases_safety_witness :
    ((([("toxicity", (⟨some (2/10), none, "toxicity"⟩ : Outcome))]
        ++ ("hallucination", (⟨some (1/10), none, "hallucination"⟩ : Outcome)) :: []).map
      Prod.fst).Nodup)
    ∧ calculate_safety_score
        ([("toxicity", ⟨some (2/10), none, "toxicity"⟩)]
          ++ ("hallucination", ⟨some (1/10), none, "hallucination"⟩) :: [])
      < calculate_safety_score
        ([("toxicity", ⟨some (2/10), none, "toxicity"⟩)]
          ++ ("hallucination", ⟨some (9/10), none, "hallucination"⟩) :: []) :=
  ⟨by decide,
   hallucination_raise_increases_safety
     [("toxicity", ⟨some (2/10), none, "toxicity"⟩)] [] none "hallucination" (by decide)⟩

/-- C5: when all requested kinds are registered and distinct, and the unit for
kind `k` raises, `evaluate_text` still returns normally: its result dict has
exactly one entry per requested kind, the faulting kind's entry is the
degraded outcome `{score: 0.0, error: <description>, evaluation_type: k}`
(error field present), and every other kind's entry is that kind's own
returned dict — no per-kind exception escapes to the caller. -/
theorem evaluate_text_failure_isolation
    (behavior : String → Except String Outcome) (text : String)
    (context : Option String) (evals : List String) (k e : String)
    (hsub : ∀ x ∈ evals, x ∈ registryKinds) (hnd : evals.Nodup)
    (hk : k ∈ evals) (hf : behavior k = .error e) :
    (evaluate_text behavior text context (some evals)).evaluations
        = evals.map (fun x => (x, outcomeOf x (behavior x)))
    ∧ dlookup k (evaluate_text behavior text context (some evals)).evaluations
        = some (degradedOutcome k e)
    ∧ ∀ x o, x ∈ evals → behavior x = .ok o →
        dlookup x (evaluate_text behavior text context (some evals)).evaluations
          = some o := by
  have hfilter : evals.filter (fun x => registryKinds.contains x) = evals := by
    rw [List.filter_eq_self]
    intro a ha
    exact List.elem_eq_true_of_mem (hsub a ha)
  have hmain : (evaluate_text behavior text context (some evals)).evaluations
      = evals.map (fun x => (x, outcomeOf x (behavior x))) := by
    show processResults evals
        ((evals.filter (fun x => registryKinds.contains x)).map behavior) = _
    rw [hfilter]
    exact processResults_eq_map behavior evals hnd
  refine ⟨hmain, ?_, ?_⟩
  · rw [hmain, dlookup_map_self (fun x => outcomeOf x (behavior x)) evals k hk, hf]
    rfl
  · intro x o hx ho
    rw [hmain, dlookup_map_self (fun y => outcomeOf y (behavior y)) evals x hx, ho]
    rfl

/-- An evaluator behaviour where the toxicity unit raises and every other
unit returns a zero-score result keyed to its own kind. -/
def faultyBehavior : String → Except String Outcome := fun k =>
  if k == "toxicity" then .error "boom" else .ok ⟨some 0, none, k⟩

/-- C5 witness: requesting toxicity and pii with the toxicity unit raising
still yields the degraded toxicity entry and pii's own result. -/
theorem evaluate_text_failure_isolation_witness :
    (∀ x ∈ (["toxicity", "pii"] : List String), x ∈ registryKinds)
    ∧ (["toxicity", "pii"] : List String).Nodup
    ∧ "toxicity" ∈ (["toxicity", "pii"] : List String)
    ∧ faultyBehavior "toxicity" = .error "boom"
    ∧ dlookup "toxicity"
        (evaluate_text faultyBehavior "t" none (some ["toxicity", "pii"])).evaluations
        = some (degradedOutcome "toxicity" "boom")
    ∧ dlookup "pii"
        (evaluate_text faultyBehavior "t" none (some ["toxicity", "pii"])).evaluations
        = some ⟨some 0, none, "pii"⟩ :=
  ⟨by decide, by decide, by decide, rfl,
   (evaluate_text_failure_isolation faultyBehavior "t" none ["toxicity", "pii"]
     "toxicity" "boom" (by decide) (by decide) (by decide) rfl).2.1,
   (evaluate_text_failure_isolation faultyBehavior "t" none ["toxicity", "pii"]
     "toxicity" "boom" (by decide) (by decide) (by decide) rfl).2.2 "pii"
     ⟨some 0, none, "pii"⟩ (by decide) rfl⟩

/-- State of one `BaseEvaluator` instance: the `_is_initialized` flag (set to
`False` in `__init__`) plus an instrumentation counter of `_load_model`
executions. -/
structure EvaluatorState where
  is_initialized : Bool
  load_attempts : Nat
  deriving DecidableEq

/-- One sequential call to `BaseEvaluator.initialize`: if the flag is set,
return at once; otherwise run `_load_model` — modelled by its result `load` —
and set the flag only when the load returned normally.  The second component
is the exception propagated to the caller, if any. -/
def initCall (load : Except String Unit) (s : EvaluatorState) :
    EvaluatorState × Option String :=
  if s.is_initialized then (s, none)
  else
    match load with
    | .ok _ => (⟨true, s.load_attempts + 1⟩, none)
    | .error e => (⟨false, s.load_attempts + 1⟩, some e)

/-- A sequence of calls, threading the evaluator state. -/
def runInitCalls (loads : List (Except String Unit)) (s : EvaluatorState) :
    EvaluatorState :=
  loads.foldl (fun st l => (initCall l st).1) s

/-- A call on an already-initialized evaluator does nothing and raises
nothing. -/
theorem initCall_of_initialized (l : Except String Unit) (s : EvaluatorState)
    (h : s.is_initialized = true) : initCall l s = (s, none) := by
  simp [initCall, h]

/-- Any sequence of calls on an already-initialized evaluator leaves it
untouched. -/
theorem runInitCalls_of_initialized :
    ∀ (loads : List (Except String Unit)) (s : EvaluatorState),
      s.is_initialized = true → runInitCalls loads s = s
  | [], _, _ => rfl
  | l :: loads, s, h => by
    unfold runInitCalls
    rw [List.foldl_cons]
    have h1 : (initCall l s).1 = s := by rw [initCall_of_initialized l s h]
    rw [h1]
    exact runInitCalls_of_initialized loads s h

/-- C8: on a cold evaluator, a successful call runs the load exactly once and
sets the flag; after that, any number of further calls performs no further
load and raises nothing.  A failing call leaves the flag `false` (so a later
call retries the load), increments the attempt count, and propagates the
failure to the caller. -/
theorem initCall_idempotent_failure_atomic (s : EvaluatorState)
    (h : s.is_initialized = false) :
    ((initCall (.ok ()) s).1 = ⟨true, s.load_attempts + 1⟩
      ∧ (initCall (.ok ()) s).2 = none
      ∧ (∀ loads, runInitCalls loads (initCall (.ok ()) s).1 = (initCall (.ok ()) s).1)
      ∧ (∀ l, initCall l (initCall (.ok ()) s).1 = ((initCall (.ok ()) s).1, none)))
    ∧ ∀ e, initCall (.error e) s = (⟨false, s.load_attempts + 1⟩, some e) := by
  have hok : initCall (.ok ()) s = (⟨true, s.load_attempts + 1⟩, none) := by
    simp [initCall, h]
  refine ⟨⟨by rw [hok], by rw [hok], ?_, ?_⟩, ?_⟩
  · intro loads
    apply runInitCalls_of_initialized
    rw [hok]
  · intro l
    apply initCall_of_initialized
    rw [hok]
  · intro e
    simp [initCall, h]

/-- C8 witness: from the fresh state, a successful call loads once, a whole
follow-up sequence changes nothing, and a failing first call leaves the flag
`false` and surfaces the error. -/
theorem initCall_idempotent_failure_atomic_witness :
    ((⟨false, 0⟩ : EvaluatorState).is_initialized = false)
    ∧ (initCall (.ok ()) ⟨false, 0⟩).1 = ⟨true, 1⟩
    ∧ runInitCalls [.ok (), .error "x", .ok ()] (initCall (.ok ()) ⟨false, 0⟩).1
        = (initCall (.ok ()) ⟨false, 0⟩).1
    ∧ initCall (.error "y") ⟨false, 0⟩ = (⟨false, 1⟩, some "y") :=
  ⟨rfl,
   (initCall_idempotent_failure_atomic ⟨false, 0⟩ rfl).1.1,
   (initCall_idempotent_failure_atomic ⟨false, 0⟩ rfl).1.2.2.1 [.ok (), .error "x", .ok ()],
   (initCall_idempotent_failure_atomic ⟨false, 0⟩ rfl).2 "y"⟩

/-- Program counter of one coroutine executing `BaseEvaluator.initialize` on a
shared cold evaluator: `start` = about to test the flag, `loading` = suspended
inside `await self._load_model()`, `finished` = returned. -/
inductive InitPC where
  | start
  | loading
  | finished
  deriving DecidableEq

/-- The shared evaluator state plus the per-caller program counters. -/
structure InitRace where
  is_initialized : Bool
  load_attempts : Nat
  pcs : List InitPC
  deriving DecidableEq

/-- One cooperative-scheduling step of caller `i`, running it to its next
suspension point.  From `start`: test `self._is_initialized`; if set, return;
otherwise begin `_load_model` (one load attempt) and suspend at the `await`.
From `loading`: the load completes, the flag is set, the call returns.  All
loads succeed in this scenario.  There is no lock around the test-and-load. -/
def raceStep (sys : InitRace) (i : Nat) : InitRace :=
  match sys.pcs[i]? with
  | some InitPC.start =>
    if sys.is_initialized then
      ⟨sys.is_initialized, sys.load_attempts, sys.pcs.set i InitPC.finished⟩
    else
      ⟨sys.is_initialized, sys.load_attempts + 1, sys.pcs.set i InitPC.loading⟩
  | some InitPC.loading => ⟨true, sys.load_attempts, sys.pcs.set i InitPC.finished⟩
  | _ => sys

/-- Run a cooperative schedule (a list of caller indices). -/
def runSchedule (sched : List Nat) (sys : InitRace) : InitRace :=
  sched.foldl raceStep sys

/-- C9: two callers concurrently invoking `initialize` on a cold evaluator are
not single-flighted.  Under the interleaving in which both test the flag
before either load completes (schedule `[0, 1, 0, 1]`), both callers run
`_load_model`: two load attempts, not one — while the fully sequential
schedule `[0, 0, 1]` performs a single attempt. -/
theorem concurrent_init_double_load :
    (runSchedule [0, 1, 0, 1] ⟨false, 0, [InitPC.start, InitPC.start]⟩).load_attempts = 2
    ∧ (runSchedule [0, 1, 0, 1] ⟨false, 0, [InitPC.start, InitPC.start]⟩).pcs
        = [InitPC.finished, InitPC.finished]
    ∧ (runSchedule [0, 0, 1] ⟨false, 0, [InitPC.start, InitPC.start]⟩).load_attempts = 1 := by
  refine ⟨rfl, rfl, rfl⟩

/-- `text.lower()` as a character list (ASCII lowering, which covers the
heuristics' search terms). -/
def lowerChars (text : String) : List Char := text.toList.map Char.toLower

/-- Python's substring test `needle in hay`. -/
def containsSub (needle : List Char) : List Char → Bool
  | [] => needle.isEmpty
  | c :: rest => needle.isPrefixOf (c :: rest) || containsSub needle rest

/-- The vague-language phrase list of `_evaluate_without_context`. -/
def vague_phrases : List String :=
  ["some people say", "many believe", "it is known",
   "experts agree", "studies show", "research indicates"]

/-- The extreme-claim word list of `_evaluate_without_context`. -/
def extreme_words : List String :=
  ["always", "never", "everyone", "no one", "best", "worst"]

/-- `any(phrase in text.lower() for phrase in vague_phrases)`. -/
def hasVagueLanguage (cs : List Char) : Bool :=
  vague_phrases.any (fun p => containsSub p.toList cs)

/-- A match of the regex `\d+ (percent|%)` starting at this position's last
digit: a digit directly followed by a space and `percent` or `%`. -/
def statHere (cs : List Char) : Bool :=
  match cs with
  | c :: rest =>
    c.isDigit && ((" percent".toList.isPrefixOf rest) || (" %".toList.isPrefixOf rest))
  | [] => false

/-- `re.search` for `\d+ (percent|%)`: the pattern matches somewhere iff some
digit is directly followed by a space and `percent` or `%`. -/
def hasUnsourcedStat : List Char → Bool
  | [] => false
  | c :: rest => statHere (c :: rest) || hasUnsourcedStat rest

/-- `any(word in text.lower() for word in extreme_words)`. -/
def hasExtremeClaim (cs : List Char) : Bool :=
  extreme_words.any (fun w => containsSub w.toList cs)

/-- The result dict of `HallucinationEvaluator._evaluate_without_context`. -/
structure HallucinationResult where
  score : ℚ
  is_hallucinated : Bool
  confidence : ℚ
  flags : List String
  evaluation_type : String
  deriving DecidableEq

/-- `HallucinationEvaluator._evaluate_without_context`: starts from score `0`,
adds `0.3` for vague language, `0.2` for an unsourced percentage statistic,
`0.2` for an extreme-claim word, caps the score at `1.0`, and flags the text
as hallucinated when the score exceeds `0.5`. -/
def evaluate_without_context (text : String) : HallucinationResult :=
  let lowered := lowerChars text
  let v := hasVagueLanguage lowered
  let n := hasUnsourcedStat lowered
  let e := hasExtremeClaim lowered
  let score0 : ℚ :=
    (if v then 3/10 else 0) + (if n then 2/10 else 0) + (if e then 2/10 else 0)
  let score := min 1 score0
  ⟨score, decide (score > 1/2), score,
   (if v then ["vague_language"] else []) ++ (if n then ["unsourced_statistic"] else [])
     ++ (if e then ["extreme_claim"] else []),
   "hallucination"⟩

/-- C10: without context, the hallucination score equals the sum of the
triggered heuristic increments (`0.3` vague language, `0.2` unsourced
statistic, `0.2` extreme claim; the cap at `1.0` never binds), hence is at
most `0.7`; and `is_hallucinated` holds exactly when the score exceeds `0.5`,
which happens exactly when all three heuristics fire. -/
theorem heuristic_score_characterization (text : String) :
    (evaluate_without_context text).score
        = (if hasVagueLanguage (lowerChars text) then 3/10 else 0)
          + (if hasUnsourcedStat (lowerChars text) then 2/10 else 0)
          + (if hasExtremeClaim (lowerChars text) then 2/10 else 0)
    ∧ (evaluate_without_context text).score ≤ 7/10
    ∧ ((evaluate_without_context text).is_hallucinated = true
        ↔ 1/2 < (evaluate_without_context text).score)
    ∧ ((evaluate_without_context text).is_hallucinated = true
        ↔ hasVagueLanguage (lowerChars text) = true
          ∧ hasUnsourcedStat (lowerChars text) = true
          ∧ hasExtremeClaim (lowerChars text) = true) := by
  cases hv : hasVagueLanguage (lowerChars text) <;>
    cases hn : hasUnsourcedStat (lowerChars text) <;>
      cases he : hasExtremeClaim (lowerChars text) <;>
        simp [evaluate_without_context, hv, hn, he, min_def, decide_eq_true_iff] <;>
          norm_num
